/-
  Verification of the scanner_bug_bounty control loop against its
  natural-language specification.

  Shallow embedding of the Python sources:
    - ai_interface.py   : generate_command retry/parse pipeline (Decision parsing)
    - command_executor.py : execute with safety filter / timeout / output shaping
    - main.py           : orchestrator loop, success classification, findings update
    - methodology_parser.py : phase-list loading

  Machine strings are Lean Strings; Python dicts produced by json.loads are
  association lists with python-dict insert semantics (update-in-place on
  duplicate key); JSON numbers keep their lexeme.  Effectful operations
  (model transport, subprocess, file system) are passed in as explicit
  outcome values.
-/
import Mathlib

namespace Scanner

/-! ## Character / string utilities mirroring Python primitives -/

/-- Whitespace for Python `str.strip()` (ASCII fragment). -/
def isPySpace (c : Char) : Bool :=
  c = ' ' || c = '\t' || c = '\n' || c = '\r' || c = '\x0b' || c = '\x0c'

/-- Whitespace skipped by Python's `json` scanner: exactly space, tab, newline, CR. -/
def isJsonWs (c : Char) : Bool :=
  c = ' ' || c = '\t' || c = '\n' || c = '\r'

/-- Whitespace matched by `\s` in Python `re` (ASCII fragment). -/
def isRegexWs (c : Char) : Bool :=
  c = ' ' || c = '\t' || c = '\n' || c = '\r' || c = '\x0b' || c = '\x0c'

/-- Test `listStartsWith hay needle`: `needle` is a leading segment of `hay`. -/
def listStartsWith : List Char → List Char → Bool
  | _, [] => true
  | [], _ :: _ => false
  | c :: cs, d :: ds => c = d && listStartsWith cs ds

/-- Substring containment, Python's `needle in hay` on strings. -/
def containsSub : List Char → List Char → Bool
  | [], needle => needle.isEmpty
  | hay@(_ :: t), needle => listStartsWith hay needle || containsSub t needle

def strContains (hay needle : String) : Bool :=
  containsSub hay.toList needle.toList

/-- Strip characters satisfying `p` from both ends of a list. -/
def stripList (p : Char → Bool) (l : List Char) : List Char :=
  ((l.dropWhile p).reverse.dropWhile p).reverse

/-- Python `str.strip()` (ASCII whitespace fragment). -/
def pyStrip (s : String) : String :=
  String.mk (stripList isPySpace s.toList)

/-- Python `str.lower()` (ASCII). -/
def pyLower (s : String) : String :=
  String.mk (s.toList.map Char.toLower)

/-- Python `str.startswith(pre)`. -/
def pyStartsWith (s pre : String) : Bool :=
  listStartsWith s.toList pre.toList

/-- Python `str.split` on one character, over the character list. -/
def splitOnChar (sep : Char) : List Char → List (List Char)
  | [] => [[]]
  | c :: rest =>
    let groups := splitOnChar sep rest
    if c = sep then [] :: groups
    else
      match groups with
      | [] => [[c]]
      | g :: gs => (c :: g) :: gs

/-- Python `str.split("\n")`. -/
def pySplitNl (s : String) : List String :=
  (splitOnChar '\n' s.toList).map String.mk

/-! ## JSON values

JSON numbers keep their source lexeme (Python would produce an int/float;
no claim depends on numeric value beyond zero-ness).  Objects are built with
python-dict insert semantics, so keys are unique and in first-insertion order,
exactly the observable behaviour of the dicts `json.loads` returns. -/

inductive Json where
  | null
  | bool (b : Bool)
  | num (lexeme : String)
  | str (s : String)
  | arr (elements : List Json)
  | obj (members : List (String × Json))
deriving Repr

mutual

/-- Structural equality of JSON values (Python `==` on json.loads results). -/
def Json.beq : Json → Json → Bool
  | .null, .null => true
  | .bool a, .bool b => a = b
  | .num a, .num b => a = b
  | .str a, .str b => a = b
  | .arr xs, .arr ys => Json.beqList xs ys
  | .obj xs, .obj ys => Json.beqMembers xs ys
  | _, _ => false

def Json.beqList : List Json → List Json → Bool
  | [], [] => true
  | x :: xs, y :: ys => Json.beq x y && Json.beqList xs ys
  | _, _ => false

def Json.beqMembers : List (String × Json) → List (String × Json) → Bool
  | [], [] => true
  | (k, v) :: xs, (k', v') :: ys => k = k' && Json.beq v v' && Json.beqMembers xs ys
  | _, _ => false

end

instance : BEq Json := ⟨Json.beq⟩

/-- Python `d[k] = v` on a dict rendered as an assoc list. -/
def pyDictInsert (kvs : List (String × Json)) (k : String) (v : Json) :
    List (String × Json) :=
  if kvs.any (fun kv => kv.1 = k) then
    kvs.map (fun kv => if kv.1 = k then (k, v) else kv)
  else kvs ++ [(k, v)]

/-- First (unique, by construction) binding of a key. -/
def dictFind : List (String × Json) → String → Option Json
  | [], _ => none
  | (k, v) :: rest, key => if k = key then some v else dictFind rest key

/-- Python `d.get(key, default)`. -/
def dict_get (kvs : List (String × Json)) (key : String) (default : Json) : Json :=
  (dictFind kvs key).getD default

/-- Zero-ness of a JSON number lexeme: every mantissa digit is `0`
(`0`, `-0`, `0.00`, `0e5` are falsy in Python; `NaN`/`Infinity` are truthy). -/
def isZeroNum (lex : String) : Bool :=
  let mantissa := lex.toList.takeWhile (fun c => ! (c = 'e' || c = 'E'))
  mantissa.any Char.isDigit && mantissa.all (fun c => ! c.isDigit || c = '0')

/-- Python truthiness of a json.loads value. -/
def jTruthy : Json → Bool
  | .null => false
  | .bool b => b
  | .num lex => ! isZeroNum lex
  | .str s => ! s.isEmpty
  | .arr xs => ! xs.isEmpty
  | .obj kvs => ! kvs.isEmpty

/-! ## `json.loads`

Recursive-descent parser over `List Char` mirroring Python's `json` decoder
(strict mode): objects, arrays, strings with the standard escapes, numbers
(lexeme kept), `true`/`false`/`null` and the `NaN`/`Infinity` constants.
Lone `\uXXXX` escapes become the code point (surrogate pairing is not
re-combined; no claim touches astral characters).  The mutual parsers take
fuel; `jsonLoads` supplies `3 * length + 8`, which dominates the worst case
of three fueled calls per input character (`[`-nesting). -/

def hexVal (c : Char) : Option Nat :=
  if '0' ≤ c ∧ c ≤ '9' then some (c.toNat - '0'.toNat)
  else if 'a' ≤ c ∧ c ≤ 'f' then some (c.toNat - 'a'.toNat + 10)
  else if 'A' ≤ c ∧ c ≤ 'F' then some (c.toNat - 'A'.toNat + 10)
  else none

def consCore (c : Char) : Option (List Char × List Char) → Option (List Char × List Char) :=
  Option.map (fun p => (c :: p.1, p.2))

/-- Body of a JSON string after the opening quote: returns the decoded
characters and the remainder after the closing quote. -/
def jStringCore : List Char → Option (List Char × List Char)
  | [] => none
  | c :: rest =>
    if c = '"' then some ([], rest)
    else if c = '\\' then
      match rest with
      | [] => none
      | e :: rest2 =>
        if e = '"' then consCore '"' (jStringCore rest2)
        else if e = '\\' then consCore '\\' (jStringCore rest2)
        else if e = '/' then consCore '/' (jStringCore rest2)
        else if e = 'b' then consCore '\x08' (jStringCore rest2)
        else if e = 'f' then consCore '\x0c' (jStringCore rest2)
        else if e = 'n' then consCore '\n' (jStringCore rest2)
        else if e = 'r' then consCore '\r' (jStringCore rest2)
        else if e = 't' then consCore '\t' (jStringCore rest2)
        else if e = 'u' then
          match rest2 with
          | h1 :: h2 :: h3 :: h4 :: rest3 =>
            match hexVal h1, hexVal h2, hexVal h3, hexVal h4 with
            | some a, some b, some cc, some d =>
              consCore (Char.ofNat (((a * 16 + b) * 16 + cc) * 16 + d)) (jStringCore rest3)
            | _, _, _, _ => none
          | _ => none
        else none
    else if c.toNat < 32 then none
    else consCore c (jStringCore rest)

def spanDigits (l : List Char) : List Char × List Char :=
  (l.takeWhile Char.isDigit, l.dropWhile Char.isDigit)

/-- Integer part of a JSON number: `0` or a nonzero digit followed by digits. -/
def jIntDigits : List Char → Option (List Char × List Char)
  | '0' :: rest => some (['0'], rest)
  | c :: rest =>
    if c.isDigit then
      let (ds, r) := spanDigits rest
      some (c :: ds, r)
    else none
  | [] => none

/-- Optional fractional part `.digits` (not consumed unless well-formed). -/
def jFrac : List Char → List Char × List Char
  | '.' :: rest =>
    let (ds, r) := spanDigits rest
    if ds.isEmpty then ([], '.' :: rest) else ('.' :: ds, r)
  | l => ([], l)

/-- Optional exponent part `[eE][+-]?digits` (not consumed unless well-formed). -/
def jExp : List Char → List Char × List Char
  | e :: s :: rest =>
    if e = 'e' || e = 'E' then
      if s = '+' || s = '-' then
        let (ds, r) := spanDigits rest
        if ds.isEmpty then ([], e :: s :: rest) else (e :: s :: ds, r)
      else
        let (ds, r) := spanDigits (s :: rest)
        if ds.isEmpty then ([], e :: s :: rest) else (e :: ds, r)
    else ([], e :: s :: rest)
  | l => ([], l)

/-- JSON number lexeme (Python's `NUMBER_RE` maximal match). -/
def jNumber : List Char → Option (List Char × List Char)
  | '-' :: rest =>
    match jIntDigits rest with
    | some (ds, r) =>
      let (f, r2) := jFrac r
      let (ex, r3) := jExp r2
      some ('-' :: (ds ++ f ++ ex), r3)
    | none => none
  | l =>
    match jIntDigits l with
    | some (ds, r) =>
      let (f, r2) := jFrac r
      let (ex, r3) := jExp r2
      some (ds ++ f ++ ex, r3)
    | none => none

mutual

def jValue : Nat → List Char → Option (Json × List Char)
  | 0, _ => none
  | _ + 1, [] => none
  | fuel + 1, c :: rest =>
    if c = '\x7b' then jObjBody fuel rest
    else if c = '[' then jArrBody fuel rest
    else if c = '"' then (jStringCore rest).map (fun p => (.str (String.mk p.1), p.2))
    else if c = 't' then
      match rest with
      | 'r' :: 'u' :: 'e' :: r2 => some (.bool true, r2)
      | _ => none
    else if c = 'f' then
      match rest with
      | 'a' :: 'l' :: 's' :: 'e' :: r2 => some (.bool false, r2)
      | _ => none
    else if c = 'n' then
      match rest with
      | 'u' :: 'l' :: 'l' :: r2 => some (.null, r2)
      | _ => none
    else if c = 'N' then
      match rest with
      | 'a' :: 'N' :: r2 => some (.num "NaN", r2)
      | _ => none
    else if c = 'I' then
      match rest with
      | 'n' :: 'f' :: 'i' :: 'n' :: 'i' :: 't' :: 'y' :: r2 => some (.num "Infinity", r2)
      | _ => none
    else if c = '-' then
      match rest with
      | 'I' :: 'n' :: 'f' :: 'i' :: 'n' :: 'i' :: 't' :: 'y' :: r2 =>
        some (.num "-Infinity", r2)
      | _ => (jNumber (c :: rest)).map (fun p => (.num (String.mk p.1), p.2))
    else (jNumber (c :: rest)).map (fun p => (.num (String.mk p.1), p.2))

def jObjBody : Nat → List Char → Option (Json × List Char)
  | 0, _ => none
  | fuel + 1, l =>
    match l.dropWhile isJsonWs with
    | [] => none
    | c :: rest =>
      if c = '\x7d' then some (.obj [], rest)
      else jMembers fuel (c :: rest) []

def jMembers : Nat → List Char → List (String × Json) → Option (Json × List Char)
  | 0, _, _ => none
  | fuel + 1, l, acc =>
    match l with
    | [] => none
    | c :: rest =>
      if c = '"' then
        match jStringCore rest with
        | none => none
        | some (key, r2) =>
          match r2.dropWhile isJsonWs with
          | [] => none
          | c2 :: r3 =>
            if c2 = ':' then
              match jValue fuel (r3.dropWhile isJsonWs) with
              | none => none
              | some (v, r4) =>
                match r4.dropWhile isJsonWs with
                | [] => none
                | c3 :: r5 =>
                  if c3 = ',' then
                    jMembers fuel (r5.dropWhile isJsonWs) (pyDictInsert acc (String.mk key) v)
                  else if c3 = '\x7d' then
                    some (.obj (pyDictInsert acc (String.mk key) v), r5)
                  else none
            else none
      else none

def jArrBody : Nat → List Char → Option (Json × List Char)
  | 0, _ => none
  | fuel + 1, l =>
    match l.dropWhile isJsonWs with
    | [] => none
    | c :: rest =>
      if c = ']' then some (.arr [], rest)
      else jElements fuel (c :: rest) []

def jElements : Nat → List Char → List Json → Option (Json × List Char)
  | 0, _, _ => none
  | fuel + 1, l, acc =>
    match jValue fuel l with
    | none => none
    | some (v, r) =>
      match r.dropWhile isJsonWs with
      | [] => none
      | c :: r2 =>
        if c = ',' then jElements fuel (r2.dropWhile isJsonWs) (acc ++ [v])
        else if c = ']' then some (.arr (acc ++ [v]), r2)
        else none

end

/-- Python `json.loads`: the decoder skips leading `[ \t\n\r]*`, scans one
value, and then requires that only such whitespace remains.  Equivalently
(as here): strip that whitespace from both ends and require the value scan
to consume the stripped text exactly — token boundaries are unaffected
because every token ends at a whitespace/delimiter either way.
Returns `none` where Python raises `json.JSONDecodeError`. -/
def jsonLoads (s : String) : Option Json :=
  let core := stripList isJsonWs s.toList
  match jValue (3 * core.length + 8) core with
  | some (v, []) => some v
  | _ => none

/-! ## ai_interface.py — Decision validation, error response, parse pipeline -/

/-- Model of `AIInterface._validate_response`. -/
def validate_response : Json → Bool
  | .obj kvs =>
    match dictFind kvs "command" with
    | none => false
    | some cmd =>
      if jTruthy (dict_get kvs "stop" (.bool false)) then true
      else
        match cmd with
        | .str s => s ≠ ""
        | _ => false
  | _ => false

/-- Model of `AIInterface._error_response`. -/
def error_response (error_msg : String) : Json :=
  .obj [("command", .str ""), ("next_phase", .str ""), ("stop", .bool true),
        ("error", .str error_msg)]

/-! ### The two `re.search` extractions

Strategy 2 uses `re.search(r'```(?:json)?\s*(\{.*?\})\s*```', content, re.DOTALL)`.
The pattern pieces around the lazy group are pairwise disjoint with their
followers (`json` vs `\s`/`{`, `\s` vs `{`, `\s` vs backtick), so the regex
engine's backtracking collapses to the deterministic scan implemented here:
at each start position, match three backticks, an optional `json`, maximal
whitespace, `{`, then the shortest run ending at a `}` that is followed by
maximal whitespace and three backticks. -/

/-- One backslash-free model of `(?:json)?` after the opening fence. -/
def consumeJsonTag (l : List Char) : List Char :=
  if listStartsWith l ['j', 's', 'o', 'n'] then l.drop 4 else l

/-- Check `\s*` then three backticks after the captured `}`. -/
def closeCheck (l : List Char) : Bool :=
  listStartsWith (l.dropWhile isRegexWs) [ '\x60', '\x60', '\x60' ]

/-- Lazy search for the closing `}` of the capture group. -/
def lazyScan (acc : List Char) : List Char → Option (List Char)
  | [] => none
  | c :: rest =>
    if c = '\x7d' && closeCheck rest then some ((c :: acc).reverse)
    else lazyScan (c :: acc) rest

/-- The part of the fenced-block pattern after the opening three backticks:
optional `json`, maximal `\s*`, then the lazy `(\{.*?\})` capture. -/
def fencedAfter (r : List Char) : Option (List Char) :=
  match (consumeJsonTag r).dropWhile isRegexWs with
  | c :: r3 => if c = '\x7b' then (lazyScan [] r3).map (fun inner => '\x7b' :: inner) else none
  | [] => none

/-- Try the fenced-block pattern anchored at the start of `l`;
returns the capture group (`{...}`). -/
def fencedAt (l : List Char) : Option (List Char) :=
  if listStartsWith l ['\x60', '\x60', '\x60'] then fencedAfter (l.drop 3)
  else none

/-- Model of `re.search` of the fenced-block pattern: leftmost start that matches. -/
def fencedSearch : List Char → Option (List Char)
  | [] => none
  | l@(_ :: t) =>
    match fencedAt l with
    | some cap => some cap
    | none => fencedSearch t

/-- Model of `re.search(r'\{.*\}', content, re.DOTALL)`: greedy, so the match runs
from the first `{` to the last `}` of the whole text (if the latter comes
after the former). -/
def braceSearch (l : List Char) : Option (List Char) :=
  match l.dropWhile (fun c => ! c = '\x7b') with
  | [] => none
  | _ :: t =>
    match t.reverse.dropWhile (fun c => ! c = '\x7d') with
    | [] => none
    | rev => some ('\x7b' :: rev.reverse)

/-! ### One parse attempt (ai_interface.py lines 30–51)

Outcomes of the per-attempt parsing of one model response `content`:
* `parsed j`            — a strategy succeeded and `_validate_response` passed;
* `invalidStructure`    — direct `json.loads` succeeded but validation failed
                          (the `continue` path);
* `parseFailed`         — decode error and all remaining strategies missed or
                          failed validation (the "Invalid JSON format" path);
* `raised msg`          — `json.loads` on a regex capture itself raised, which
                          escapes the `except json.JSONDecodeError` block into
                          the outer `except Exception` handler (skipping any
                          later strategy).  Decode-error messages are
                          abstracted as the fixed string "JSONDecodeError". -/

inductive AttemptOutcome where
  | parsed (j : Json)
  | invalidStructure
  | parseFailed
  | raised (msg : String)
deriving Repr

/-- Strategy 3: first brace-delimited substring (greedy). -/
def tryBrace (content : String) : AttemptOutcome :=
  match braceSearch content.toList with
  | some cap =>
    match jsonLoads (String.mk cap) with
    | some j => if validate_response j then .parsed j else .parseFailed
    | none => .raised "JSONDecodeError"
  | none => .parseFailed

/-- Strategies 1–3 applied to one response text. -/
def parse_attempt (content : String) : AttemptOutcome :=
  match jsonLoads content with
  | some j => if validate_response j then .parsed j else .invalidStructure
  | none =>
    match fencedSearch content.toList with
    | some cap =>
      match jsonLoads (String.mk cap) with
      | some j => if validate_response j then .parsed j else tryBrace content
      | none => .raised "JSONDecodeError"
    | none => tryBrace content

/-- Model of `AIInterface.generate_command`.  The model transport is an explicit list
of per-attempt outcomes, one per iteration of `range(retry_count)` (default
`retry_count = 3` gives a 3-element list): `.error e` models the request
raising an exception rendered as `str(e)`; `.ok raw` a returned message
content.  Mirrors the source exactly: on the last attempt an exception
returns `_error_response(str(e))`, a decode failure after all strategies
returns `_error_response("Invalid JSON format")`, and only falling out of
the loop (final attempt parsed but failed validation) returns
`_error_response("Max retries exceeded")`. -/
def generate_command : List (Except String String) → Json
  | [] => error_response "Max retries exceeded"
  | t :: rest =>
    match t with
    | .error e =>
      if rest.isEmpty then error_response e else generate_command rest
    | .ok raw =>
      match parse_attempt (pyStrip raw) with
      | .parsed j => j
      | .invalidStructure => generate_command rest
      | .parseFailed =>
        if rest.isEmpty then error_response "Invalid JSON format" else generate_command rest
      | .raised msg =>
        if rest.isEmpty then error_response msg else generate_command rest

/-- The fenced-code-block presentation of a JSON text. -/
def fence_wrap (j : String) : String :=
  "\x60\x60\x60json\n" ++ j ++ "\n\x60\x60\x60"

/-! ## command_executor.py — CommandExecutor -/

/-- The deny-list (`dangerous_patterns` in `_is_safe_command`).
The fork-bomb pattern is `:(){ :|:& };:`; braces appear as `\x7b`/`\x7d`. -/
def dangerous_patterns : List String :=
  [ "rm -rf /",
    ":()\x7b :|:& \x7d;:",
    "dd if=/dev/zero",
    "mkfs.",
    "> /dev/sda",
    "wget http://",
    "curl http://",
    "nc -e",
    "/bin/bash -i",
    "/bin/sh -i" ]

/-- Model of `CommandExecutor._is_safe_command`. -/
def is_safe_command (command : String) : Bool :=
  dangerous_patterns.all (fun p => ! strContains (pyLower command) (pyLower p))

/-- Outcome of `asyncio.create_subprocess_shell` + `wait_for(communicate)`,
passed in explicitly: the process completed with an exit code and captured
streams, the `wait_for` timed out, or process creation raised. -/
inductive SpawnOutcome where
  | completed (returncode : Int) (stdout stderr : String)
  | timedOut
  | exnAtCreate (msg : String)
deriving Repr

/-- Result of one `execute` call: the returned string, the audit list
(`executed_commands`, timestamps elided as the claims only concern the
command texts), and which process-control effects happened. -/
structure ExecResult where
  output : String
  executed_commands : List String
  spawned : Bool
  killed : Bool
  waited : Bool
deriving Repr

/-- Model of `CommandExecutor.execute` (constructor default `timeout = 600`;
`main.py` builds `CommandExecutor()` with that default). -/
def execute (timeout : Nat) (executed_commands : List String) (command : String)
    (outcome : SpawnOutcome) : ExecResult :=
  if ! is_safe_command command then
    { output := "Command blocked for safety: " ++ command
      executed_commands := executed_commands
      spawned := false, killed := false, waited := false }
  else
    let executed' := executed_commands ++ [command]
    match outcome with
    | .timedOut =>
      { output := "Command timed out after " ++ toString timeout ++ " seconds"
        executed_commands := executed'
        spawned := true, killed := true, waited := true }
    | .exnAtCreate msg =>
      { output := "Command execution error: " ++ msg
        executed_commands := executed'
        spawned := false, killed := false, waited := false }
    | .completed returncode stdout stderr =>
      let base :=
        if returncode = 0 then pyStrip stdout
        else
          let stdout_str := pyStrip stdout
          let stderr_str := pyStrip stderr
          if ! stdout_str.isEmpty then
            "STDOUT:\n" ++ stdout_str ++ "\n\nSTDERR:\n" ++ stderr_str
          else stderr_str
      let output :=
        if pyStrip base = "" then
          "[No output. Exit code: " ++ toString returncode ++ "]"
        else base
      { output := output
        executed_commands := executed'
        spawned := true, killed := false, waited := true }

/-! ## main.py — orchestrator pieces -/

/-- The `_check_command_success` failure markers. -/
def failure_indicators : List String :=
  [ "command not found",
    "no such file",
    "permission denied",
    "error:",
    "failed to",
    "[no output. exit code:",
    "usage:" ]

/-- Model of `BugBountyAutomator._check_command_success`. -/
def check_command_success (output : String) : Bool :=
  if output.isEmpty || (pyStrip output).isEmpty then false
  else failure_indicators.all (fun ind => ! strContains (pyLower output) ind)

/-- The accumulated findings dict of `BugBountyAutomator.__init__`.
Vulnerability entries come from AI analyses and may be arbitrary JSON values;
host / subdomain entries are lines of tool output (strings). -/
structure Findings where
  vulnerabilities : List Json
  interesting_findings : List Json
  live_hosts : List String
  subdomains : List String
deriving Repr

/-- Python iteration over a json.loads value (`for x in v`): lists yield
elements, strings their single-character substrings, dicts their keys;
anything else raises `TypeError` (modelled as `none`). -/
def pyIter : Json → Option (List Json)
  | .arr xs => some xs
  | .str s => some (s.toList.map (fun c => .str (String.mk [c])))
  | .obj kvs => some (kvs.map (fun kv => .str kv.1))
  | _ => none

/-- Model of `BugBountyAutomator._update_findings`; `none` models a raised
`TypeError` (non-iterable `"vulnerabilities"` value). -/
def update_findings (analysis : Json) (output : String) (f : Findings) :
    Option Findings :=
  let vulnsVal :=
    match analysis with
    | .obj kvs => dict_get kvs "vulnerabilities" (.arr [])
    | _ => .arr []
  match pyIter vulnsVal with
  | none => none
  | some vulns =>
    let vlist := vulns.foldl
      (fun acc v => if acc.contains v then acc else acc ++ [v])
      f.vulnerabilities
    let hosts :=
      if strContains (pyLower output) "http" then
        (pySplitNl output).foldl
          (fun acc line =>
            if pyStartsWith line "http" then
              if acc.contains line then acc else acc ++ [pyStrip line]
            else acc)
          f.live_hosts
      else f.live_hosts
    let subs :=
      if strContains (pyLower output) "subdomain" || strContains output ".com" then
        (pySplitNl output).foldl
          (fun acc line =>
            if strContains line "." && ! (pyStrip line).isEmpty then
              let potential_domain := pyStrip line
              if acc.contains potential_domain then acc else acc ++ [potential_domain]
            else acc)
          f.subdomains
      else f.subdomains
    some { f with vulnerabilities := vlist, live_hosts := hosts, subdomains := subs }

/-- Line 79 of `main.py`: `next_phase = result.get("next_phase", current_phase)`,
assigned to `current_phase` at line 128. -/
def next_phase_of (result : List (String × Json)) (current_phase : Json) : Json :=
  dict_get result "next_phase" current_phase

/-- Terminal states of `BugBountyAutomator.run`: the `while` condition went
false (step budget or consecutive-failure budget), the AI stop branch broke
the loop, or an uncaught exception ended the session.  Each carries the
number of loop iterations that started. -/
inductive RunOutcome where
  | limit (steps : Nat) (failures : Nat) (phase : Json) (findings : Findings)
  | stoppedByAI (steps : Nat)
  | crashed (steps : Nat)
deriving Repr

def RunOutcome.steps : RunOutcome → Nat
  | .limit s _ _ _ => s
  | .stoppedByAI s => s
  | .crashed s => s

/-- The `while step < max_steps and consecutive_failures < max_failures`
loop of `BugBountyAutomator.run`.  `decisions n` is the dict returned by
`generate_command` at step `n` (always a dict: either a validated parse or
`_error_response`); `outputs n` the executor result text; `analyses n` the
`analyze_output` dict.  Console rendering, prompt building, history append
and file logging do not touch the loop-control state and are elided. -/
def runLoop (decisions : Nat → List (String × Json)) (outputs : Nat → String)
    (analyses : Nat → Json) (max_steps max_failures : Nat)
    (step consecutive_failures : Nat) (current_phase : Json) (findings : Findings) :
    RunOutcome :=
  if _h : step < max_steps ∧ consecutive_failures < max_failures then
    let step' := step + 1
    let result := decisions step'
    if ! jTruthy (dict_get result "command" .null)
        || jTruthy (dict_get result "stop" .null) then
      .stoppedByAI step'
    else
      match dict_get result "command" .null with
      | .str _ =>
        let output := outputs step'
        let success := check_command_success output
        let failures' := if success then 0 else consecutive_failures + 1
        match update_findings (analyses step') output findings with
        | none => .crashed step'
        | some findings' =>
          runLoop decisions outputs analyses max_steps max_failures
            step' failures' (next_phase_of result current_phase) findings'
      | _ => .crashed step'
  else .limit step consecutive_failures current_phase findings
termination_by max_steps - step
decreasing_by
  omega

/-! ## methodology_parser.py -/

/-- What `open(file_path).read`-and-iterate can do: yield the text, raise
`FileNotFoundError`, or raise some other `OSError` (permissions, directory,
decoding, ...).  Only the first two are handled by `parse`. -/
inductive ReadResult where
  | content (text : String)
  | fileNotFound
  | ioError (msg : String)
deriving Repr

def default_phases : List String :=
  ["reconnaissance", "scanning", "exploitation"]

/-- Universal-newlines translation of text-mode file reading:
`\r\n` and lone `\r` both become `\n`. -/
def normalizeNewlines : List Char → List Char
  | [] => []
  | '\r' :: '\n' :: rest => '\n' :: normalizeNewlines rest
  | '\r' :: rest => '\n' :: normalizeNewlines rest
  | c :: rest => c :: normalizeNewlines rest

/-- Lines as Python text-mode file iteration yields them (universal
newlines), with each kept line stripped; the filter checks the raw line. -/
def phase_lines (text : String) : List String :=
  (((splitOnChar '\n' (normalizeNewlines text.toList)).map String.mk).filter
    (fun line => ! (pyStrip line).isEmpty && ! pyStartsWith line "#")).map pyStrip

/-- Model of `MethodologyParser.parse`.  `.error msg` models an uncaught exception
(only `FileNotFoundError` is caught by the source). -/
def methodology_parse (r : ReadResult) : Except String (List String) :=
  match r with
  | .content text =>
    let phases := phase_lines text
    .ok (if phases.isEmpty then default_phases else phases)
  | .fileNotFound => .ok default_phases
  | .ioError msg => .error msg

/-! ## Helper lemmas -/

theorem listStartsWith_append (n a b : List Char) (h : listStartsWith a n = true) :
    listStartsWith (a ++ b) n = true := by
  induction n generalizing a with
  | nil => cases a <;> simp [listStartsWith]
  | cons c cs ih =>
    cases a with
    | nil => simp [listStartsWith] at h
    | cons x xs =>
      simp only [listStartsWith, Bool.and_eq_true] at h ⊢
      exact ⟨h.1, ih xs h.2⟩

theorem containsSub_nil_needle (l : List Char) : containsSub l [] = true := by
  cases l <;> simp [containsSub, listStartsWith]

theorem containsSub_append_left (a b n : List Char) (h : containsSub a n = true) :
    containsSub (a ++ b) n = true := by
  induction a with
  | nil =>
    simp only [containsSub, List.isEmpty_iff] at h
    subst h
    simpa using containsSub_nil_needle b
  | cons x xs ih =>
    simp only [containsSub, Bool.or_eq_true] at h ⊢
    rcases h with h1 | h2
    · exact Or.inl (listStartsWith_append n (x :: xs) b h1)
    · exact Or.inr (ih h2)

theorem strContains_append_left (a b n : String)
    (h : strContains a n = true) : strContains (a ++ b) n = true := by
  have hl : (a ++ b).toList = a.toList ++ b.toList := by
    simp [String.toList]
  unfold strContains at h ⊢
  rw [hl]
  exact containsSub_append_left _ _ _ h

/-! ## C1 — generate_command when the transport raises on all 3 attempts -/

/-- C1 (counterexample): with the transport raising `"Connection error."` on
each of the default 3 retry attempts, `generate_command` does **not** return
the canonical `"Max retries exceeded"` error Decision (it returns the error
Decision carrying `str(e)` of the final exception instead). -/
theorem generate_command_all_raises_counterexample :
    generate_command
        [.error "Connection error.", .error "Connection error.", .error "Connection error."]
      ≠ error_response "Max retries exceeded" := by
  have h : generate_command
      [.error "Connection error.", .error "Connection error.", .error "Connection error."]
      = error_response "Connection error." := rfl
  rw [h]
  simp [error_response]

/-- C1 (amended): when the transport raises on every one of the 3 retry
attempts, `generate_command` returns the canonical error Decision whose
`error` field is `str(e)` of the exception of the **final** attempt
(`{command:"", next_phase:"", stop:true, error:e3}`); the message
`"Max retries exceeded"` arises only from the fall-out-of-the-loop path. -/
theorem generate_command_transport_raises_all (e1 e2 e3 : String) :
    generate_command [.error e1, .error e2, .error e3] = error_response e3 := rfl

/-! ## C2 — next_phase handling in the orchestrator iteration -/

/-- C2 (counterexample): at `main.py` line 79 a Decision whose `next_phase`
is the **empty string** does change the phase: with current phase
`"reconnaissance"`, the next iteration's phase becomes `""`, not
`"reconnaissance"` as the claim states. -/
theorem next_phase_empty_counterexample :
    next_phase_of [("command", Json.str "ls"), ("next_phase", Json.str "")]
        (Json.str "reconnaissance")
      ≠ Json.str "reconnaissance" := by
  have h : next_phase_of [("command", Json.str "ls"), ("next_phase", Json.str "")]
      (Json.str "reconnaissance") = Json.str "" := rfl
  rw [h]
  simp

/-- C2 (amended): the phase for the next iteration is the Decision's
`next_phase` value whenever the key is **present** (including the empty
string), and the unchanged current phase only when the key is absent
(`result.get("next_phase", current_phase)`). -/
theorem next_phase_semantics (result : List (String × Json)) (cur : Json) :
    (dictFind result "next_phase" = none → next_phase_of result cur = cur) ∧
    (∀ v, dictFind result "next_phase" = some v → next_phase_of result cur = v) := by
  constructor
  · intro h
    simp [next_phase_of, dict_get, h]
  · intro v h
    simp [next_phase_of, dict_get, h]

/-- Witness for C2's amended theorem at a concrete Decision. -/
theorem next_phase_semantics_witness :
    next_phase_of [("command", Json.str "ls"), ("next_phase", Json.str "scanning")]
        (Json.str "reconnaissance")
      = Json.str "scanning" :=
  (next_phase_semantics
      [("command", Json.str "ls"), ("next_phase", Json.str "scanning")]
      (Json.str "reconnaissance")).2 (Json.str "scanning") rfl

/-! ## C3 — timeout behaviour of execute -/

/-- C3: for a command passing the safety filter whose awaited subprocess
hits the configured timeout (default `600`), `execute` kills and awaits the
process and returns (instead of raising) the string
`"Command timed out after {timeout} seconds"`, which contains `"timed out"`. -/
theorem execute_timeout (timeout : Nat) (executed : List String) (command : String)
    (hsafe : is_safe_command command = true) :
    (execute timeout executed command .timedOut).output
        = "Command timed out after " ++ toString timeout ++ " seconds" ∧
    strContains (execute timeout executed command .timedOut).output "timed out" = true ∧
    (execute timeout executed command .timedOut).spawned = true ∧
    (execute timeout executed command .timedOut).killed = true ∧
    (execute timeout executed command .timedOut).waited = true := by
  have hexec : execute timeout executed command .timedOut =
      { output := "Command timed out after " ++ toString timeout ++ " seconds"
        executed_commands := executed ++ [command]
        spawned := true, killed := true, waited := true } := by
    simp [execute, hsafe]
  rw [hexec]
  refine ⟨rfl, ?_, rfl, rfl, rfl⟩
  have h1 : strContains "Command timed out after " "timed out" = true := by decide
  exact strContains_append_left _ " seconds" _
    (strContains_append_left _ (toString timeout) _ h1)

/-- Witness for C3 at the default timeout `600` and a safe command. -/
theorem execute_timeout_witness :
    (execute 600 [] "nmap -p- target.com" .timedOut).output
        = "Command timed out after " ++ toString 600 ++ " seconds" ∧
    strContains (execute 600 [] "nmap -p- target.com" .timedOut).output "timed out" = true ∧
    (execute 600 [] "nmap -p- target.com" .timedOut).spawned = true ∧
    (execute 600 [] "nmap -p- target.com" .timedOut).killed = true ∧
    (execute 600 [] "nmap -p- target.com" .timedOut).waited = true :=
  execute_timeout 600 [] "nmap -p- target.com" (by decide)

/-! ## C7 — deny-list rejection before any subprocess -/

/-- C7: for every command containing a deny-list pattern as a
case-insensitive substring, `execute` spawns no subprocess, returns a
message containing `"blocked"`, and leaves `executed_commands` untouched —
whatever the subprocess oracle would have produced. -/
theorem execute_blocked (timeout : Nat) (executed : List String) (command : String)
    (outcome : SpawnOutcome)
    (hmatch : dangerous_patterns.any
        (fun p => strContains (pyLower command) (pyLower p)) = true) :
    (execute timeout executed command outcome).spawned = false ∧
    strContains (execute timeout executed command outcome).output "blocked" = true ∧
    (execute timeout executed command outcome).executed_commands = executed := by
  have hunsafe : is_safe_command command = false := by
    rcases List.any_eq_true.mp hmatch with ⟨p, hp, hc⟩
    by_contra hne
    have htrue : is_safe_command command = true := by
      cases hiseq : is_safe_command command
      · exact absurd hiseq hne
      · rfl
    have := List.all_eq_true.mp htrue p hp
    simp [hc] at this
  have hexec : execute timeout executed command outcome =
      { output := "Command blocked for safety: " ++ command
        executed_commands := executed
        spawned := false, killed := false, waited := false } := by
    simp [execute, hunsafe]
  rw [hexec]
  refine ⟨rfl, ?_, rfl⟩
  exact strContains_append_left "Command blocked for safety: " command "blocked" (by decide)

/-- Witness for C7 at a concrete deny-listed command. -/
theorem execute_blocked_witness :
    (execute 600 ["whoami"] "sudo rm -rf / --no-preserve-root" .timedOut).spawned = false ∧
    strContains (execute 600 ["whoami"] "sudo rm -rf / --no-preserve-root" .timedOut).output
        "blocked" = true ∧
    (execute 600 ["whoami"] "sudo rm -rf / --no-preserve-root" .timedOut).executed_commands
        = ["whoami"] :=
  execute_blocked 600 ["whoami"] "sudo rm -rf / --no-preserve-root" .timedOut (by decide)

/-! ## C8 — empty output on zero exit -/

/-- C8: a safe command whose subprocess exits `0` with stdout and stderr both
empty after stripping makes `execute` return exactly
`"[No output. Exit code: 0]"`. -/
theorem execute_no_output (timeout : Nat) (executed : List String)
    (command stdout stderr : String)
    (hsafe : is_safe_command command = true)
    (hout : pyStrip stdout = "") (_herr : pyStrip stderr = "") :
    (execute timeout executed command (.completed 0 stdout stderr)).output
      = "[No output. Exit code: 0]" := by
  simp [execute, hsafe, hout]
  rfl

/-- Witness for C8 at a concrete safe command with whitespace-only stdout. -/
theorem execute_no_output_witness :
    (execute 600 [] "ls -la" (.completed 0 "  \n" "")).output
      = "[No output. Exit code: 0]" :=
  execute_no_output 600 [] "ls -la" "  \n" "" (by decide) (by decide) (by decide)

/-! ## C6 — deduplication of the findings collections -/

/-- C6 (code bug): `_update_findings` checks live-host novelty on the **raw**
line (`if line not in self.findings["live_hosts"]`) but appends the
**stripped** line (`append(line.strip())`).  An httpx-style output whose two
identical lines carry a trailing blank therefore inserts the same host string
twice: starting from empty findings, output
`"http://a.com \nhttp://a.com "` (an empty analysis dict) yields
`live_hosts = ["http://a.com", "http://a.com"]` — a duplicate, violating the
claimed no-duplicates invariant. -/
theorem update_findings_duplicate_live_hosts :
    update_findings (.obj []) "http://a.com \nhttp://a.com "
        ⟨[], [], [], []⟩
      = some ⟨[], [], ["http://a.com", "http://a.com"], ["http://a.com"]⟩ ∧
    ¬ (["http://a.com", "http://a.com"] : List String).Nodup := by
  constructor
  · rfl
  · simp

/-! ## C9 — methodology parsing and read failures -/

/-- C9 (counterexample): a read failure other than `FileNotFoundError`
(e.g. a `PermissionError`) is **not** converted to the default list — the
exception propagates out of `parse`. -/
theorem methodology_io_error_counterexample :
    methodology_parse (.ioError "Permission denied") ≠ .ok default_phases := by
  simp [methodology_parse]

/-- C9 (amended): the parser returns one stripped phase name per non-empty,
non-`#`-prefixed line in file order when at least one such line exists (an
all-filtered file also falls back to the default); a missing file yields
exactly `["reconnaissance", "scanning", "exploitation"]`; any other read
error propagates as an exception. -/
theorem methodology_parse_spec (text msg : String) :
    (phase_lines text ≠ [] → methodology_parse (.content text) = .ok (phase_lines text)) ∧
    (phase_lines text = [] → methodology_parse (.content text) = .ok default_phases) ∧
    methodology_parse .fileNotFound = .ok default_phases ∧
    methodology_parse (.ioError msg) = .error msg := by
  refine ⟨?_, ?_, rfl, rfl⟩
  · intro h
    simp [methodology_parse, List.isEmpty_iff, h]
  · intro h
    simp [methodology_parse, List.isEmpty_iff, h]

/-- Witness for C9's amended theorem on a small concrete file. -/
theorem methodology_parse_spec_witness :
    methodology_parse (.content "recon\n# comment\n  scanning  \n") = .ok ["recon", "scanning"] :=
  (methodology_parse_spec "recon\n# comment\n  scanning  \n" "x").1 (by decide)

/-! ## C10 — the phase list is never empty -/

/-- C10: a file with no qualifying phase line resolves to the default list,
and every successfully parsed phase list is non-empty (so `phases[0]` in
`run` is defined). -/
theorem methodology_parse_nonempty (r : ReadResult) (text : String) :
    (phase_lines text = [] → methodology_parse (.content text) = .ok default_phases) ∧
    (∀ l, methodology_parse r = .ok l → l ≠ []) := by
  constructor
  · intro h
    simp [methodology_parse, List.isEmpty_iff, h]
  · intro l hl
    cases r with
    | content t =>
      simp only [methodology_parse] at hl
      by_cases h : (phase_lines t).isEmpty
      · simp [h] at hl
        simp [← hl, default_phases]
      · simp [h] at hl
        rw [← hl]
        simpa [List.isEmpty_iff] using h
    | fileNotFound =>
      simp only [methodology_parse] at hl
      simp [← hl.symm, default_phases]
      intro hcontra
      rw [hcontra] at hl
      simp [default_phases] at hl
    | ioError m => simp [methodology_parse] at hl

/-- Witness for C10 on an all-comment file. -/
theorem methodology_parse_nonempty_witness :
    methodology_parse (.content "# only\n   \n") = .ok default_phases ∧
    default_phases ≠ [] :=
  ⟨(methodology_parse_nonempty (.content "x") "# only\n   \n").1 (by decide),
   (methodology_parse_nonempty (.content "# only\n   \n") "x").2 default_phases
     ((methodology_parse_nonempty (.content "x") "# only\n   \n").1 (by decide))⟩

/-! ## C5 — termination of the orchestrator loop -/

theorem runLoop_steps_le (d : Nat → List (String × Json)) (o : Nat → String)
    (a : Nat → Json) (mS mF : Nat) :
    ∀ n step failures phase f, mS - step ≤ n → step ≤ mS →
      (runLoop d o a mS mF step failures phase f).steps ≤ mS := by
  intro n
  induction n with
  | zero =>
    intro step failures phase f hn hle
    have hc : ¬ (step < mS ∧ failures < mF) := by omega
    rw [runLoop, dif_neg hc]
    simpa [RunOutcome.steps] using hle
  | succ n ih =>
    intro step failures phase f hn hle
    by_cases hc : step < mS ∧ failures < mF
    · rw [runLoop, dif_pos hc]
      dsimp only
      split
      · simp only [RunOutcome.steps]
        omega
      · split
        · split
          · simp only [RunOutcome.steps]
            omega
          · exact ih (step + 1) _ _ _ (by omega) (by omega)
        · simp only [RunOutcome.steps]
          omega
    · rw [runLoop, dif_neg hc]
      simpa [RunOutcome.steps] using hle

theorem runLoop_all_fail (d : Nat → List (String × Json)) (o : Nat → String)
    (a : Nat → Json) (mS mF : Nat)
    (hcmd : ∀ n, ∃ s, s ≠ "" ∧ dictFind (d n) "command" = some (.str s))
    (hstop : ∀ n, jTruthy (dict_get (d n) "stop" .null) = false)
    (hfail : ∀ n, check_command_success (o n) = false)
    (hupd : ∀ n f, (update_findings (a n) (o n) f).isSome = true) :
    ∀ k step failures phase f, mF - failures ≤ k → failures ≤ mF →
      mF - failures ≤ mS - step →
      (runLoop d o a mS mF step failures phase f).steps = step + (mF - failures) := by
  intro k
  induction k with
  | zero =>
    intro step failures phase f hk hle hbud
    have hc : ¬ (step < mS ∧ failures < mF) := by omega
    rw [runLoop, dif_neg hc]
    simp only [RunOutcome.steps]
    omega
  | succ k ih =>
    intro step failures phase f hk hle hbud
    by_cases hmf : failures = mF
    · have hc : ¬ (step < mS ∧ failures < mF) := by omega
      rw [runLoop, dif_neg hc]
      simp only [RunOutcome.steps]
      omega
    · have hflt : failures < mF := by omega
      have hstep : step < mS := by omega
      rw [runLoop, dif_pos ⟨hstep, hflt⟩]
      dsimp only
      obtain ⟨s, hs, hfind⟩ := hcmd (step + 1)
      have hcmdget : dict_get (d (step + 1)) "command" .null = .str s := by
        simp [dict_get, hfind]
      have htruthy : jTruthy (dict_get (d (step + 1)) "command" .null) = true := by
        rw [hcmdget]
        have hne : s.isEmpty = false := by
          rw [Bool.eq_false_iff]
          simp [String.isEmpty_iff, hs]
        simp [jTruthy, hne]
      have hcond : (!jTruthy (dict_get (d (step + 1)) "command" Json.null)
          || jTruthy (dict_get (d (step + 1)) "stop" Json.null)) = false := by
        rw [htruthy, hstop (step + 1)]
        rfl
      rw [if_neg (by simp [hcond])]
      rw [hcmdget]
      obtain ⟨f', hf'⟩ := Option.isSome_iff_exists.mp (hupd (step + 1) f)
      rw [hf']
      rw [if_neg (by simp [hfail (step + 1)])]
      rw [ih (step + 1) (failures + 1) _ f' (by omega) (by omega) (by omega)]
      omega

/-- C5: (i) whatever the AI produces, the orchestrator loop finishes within
`max_steps` iterations — in particular even when every Decision is
non-stopping with a non-empty command; and (ii) when additionally every
executed command is classified as a failure, the loop stops exactly at the
step at which the consecutive-failure counter reaches `max_failures`
(for budgets with `max_failures ≤ max_steps`; `main.py` uses 50 and 5). -/
theorem orchestrator_terminates (d : Nat → List (String × Json)) (o : Nat → String)
    (a : Nat → Json) (mS mF : Nat) (phase : Json) (f : Findings) :
    (runLoop d o a mS mF 0 0 phase f).steps ≤ mS ∧
    ((∀ n, ∃ s, s ≠ "" ∧ dictFind (d n) "command" = some (.str s)) →
      (∀ n, jTruthy (dict_get (d n) "stop" .null) = false) →
      (∀ n, check_command_success (o n) = false) →
      (∀ n g, (update_findings (a n) (o n) g).isSome = true) →
      mF ≤ mS →
      (runLoop d o a mS mF 0 0 phase f).steps = mF) := by
  constructor
  · exact runLoop_steps_le d o a mS mF mS 0 0 phase f (by omega) (by omega)
  · intro hcmd hstop hfail hupd hbud
    have h := runLoop_all_fail d o a mS mF hcmd hstop hfail hupd mF 0 0 phase f
      (by omega) (by omega) (by omega)
    simpa using h

/-- Witness for C5: constant failing decisions/outputs, budgets 50/5 —
the loop runs exactly 5 steps. -/
theorem orchestrator_terminates_witness :
    (runLoop (fun _ => [("command", Json.str "ls"), ("next_phase", Json.str "scanning")])
        (fun _ => "error: not found") (fun _ => .obj []) 50 5 0 0
        (.str "reconnaissance") ⟨[], [], [], []⟩).steps = 5 :=
  (orchestrator_terminates (fun _ => [("command", Json.str "ls"), ("next_phase", Json.str "scanning")])
      (fun _ => "error: not found") (fun _ => .obj []) 50 5
      (.str "reconnaissance") ⟨[], [], [], []⟩).2
    (fun _ => ⟨"ls", by decide, rfl⟩)
    (fun _ => rfl)
    (fun _ => by decide)
    (fun _ g => by simp [update_findings, pyIter, dict_get, dictFind])
    (by omega)

/-! ## C4 — Decision parsing across presentations -/

/-- C4 (counterexample): the JSON text `{"command": "a} ```b"}` parses bare
(strategy 1) to a valid Decision, but in a fenced code block the lazy capture
of strategy 2 is the prefix `{"command": "a}` — cut at the `}` and the
backtick run **inside the string value** — whose `json.loads` raises, which
skips strategy 3 and aborts the attempt instead of producing an equal
Decision. -/
theorem parse_attempt_fence_counterexample :
    parse_attempt "\x7b\"command\": \"a\x7d \x60\x60\x60b\"\x7d"
        = .parsed (.obj [("command", .str "a\x7d \x60\x60\x60b")]) ∧
    parse_attempt (fence_wrap "\x7b\"command\": \"a\x7d \x60\x60\x60b\"\x7d")
        ≠ .parsed (.obj [("command", .str "a\x7d \x60\x60\x60b")]) := by
  constructor
  · rfl
  · have h : parse_attempt (fence_wrap "\x7b\"command\": \"a\x7d \x60\x60\x60b\"\x7d")
        = .raised "JSONDecodeError" := rfl
    rw [h]
    simp

/-! ### List lemmas for the fenced-presentation proof -/

theorem dropWhile_append_pos (p : Char → Bool) (a b : List Char)
    (h : ∀ x ∈ a, p x = true) : (a ++ b).dropWhile p = b.dropWhile p := by
  induction a with
  | nil => rfl
  | cons c cs ih =>
    have hc : p c = true := h c (by simp)
    simp only [List.cons_append, List.dropWhile_cons, hc, if_pos]
    exact ih (fun x hx => h x (by simp [hx]))

theorem dropWhile_append_neg (p : Char → Bool) (a b c : List Char) (x : Char)
    (h : a.dropWhile p = x :: c) : (a ++ b).dropWhile p = x :: (c ++ b) := by
  induction a with
  | nil => simp at h
  | cons y ys ih =>
    by_cases hy : p y = true
    · simp only [List.dropWhile_cons, hy, if_pos] at h
      simp only [List.cons_append, List.dropWhile_cons, hy, if_pos]
      exact ih h
    · rw [List.dropWhile_cons, if_neg hy] at h
      injection h with h1 h2
      subst h1
      subst h2
      rw [List.cons_append, List.dropWhile_cons, if_neg hy]

theorem listStartsWith_self_append (n b : List Char) :
    listStartsWith (n ++ b) n = true := by
  induction n with
  | nil => cases b <;> simp [listStartsWith]
  | cons c cs ih => simp [listStartsWith, ih]

theorem containsSub_of_decomp (a n b l : List Char) (h : l = a ++ (n ++ b)) :
    containsSub l n = true := by
  subst h
  induction a with
  | nil =>
    cases hn : n ++ b with
    | nil => simp [containsSub, List.append_eq_nil.mp hn]
    | cons c cs =>
      simp only [hn, containsSub, Bool.or_eq_true]
      exact Or.inl (hn ▸ listStartsWith_self_append n b)
  | cons c cs ih =>
    simp only [List.cons_append, containsSub, Bool.or_eq_true]
    exact Or.inr ih

theorem listStartsWith_three (l : List Char) (a b c : Char)
    (h : listStartsWith l [a, b, c] = true) : ∃ t, l = a :: b :: c :: t := by
  match l with
  | [] => simp [listStartsWith] at h
  | [x] => simp [listStartsWith] at h
  | [x, y] => simp [listStartsWith] at h
  | x :: y :: z :: t =>
    simp only [listStartsWith, Bool.and_eq_true, decide_eq_true_eq] at h
    obtain ⟨h1, h2, h3, _⟩ := h
    exact ⟨t, by simp [h1, h2, h3]⟩

theorem stripList_decomp (p : Char → Bool) (l : List Char) :
    ∃ a b, l = a ++ stripList p l ++ b ∧ (∀ x ∈ a, p x = true) ∧ (∀ x ∈ b, p x = true) := by
  refine ⟨l.takeWhile p, ((l.dropWhile p).reverse.takeWhile p).reverse, ?_, ?_, ?_⟩
  · conv_lhs => rw [← List.takeWhile_append_dropWhile (p := p) (l := l)]
    rw [List.append_assoc]
    congr 1
    calc l.dropWhile p = ((l.dropWhile p).reverse).reverse := by rw [List.reverse_reverse]
      _ = ((l.dropWhile p).reverse.takeWhile p
            ++ (l.dropWhile p).reverse.dropWhile p).reverse := by
            rw [List.takeWhile_append_dropWhile]
      _ = ((l.dropWhile p).reverse.dropWhile p).reverse
            ++ ((l.dropWhile p).reverse.takeWhile p).reverse := by
            rw [List.reverse_append]
  · intro x hx
    exact List.mem_takeWhile_imp hx
  · intro x hx
    rw [List.mem_reverse] at hx
    exact List.mem_takeWhile_imp hx

theorem stripList_eq_self (p : Char → Bool) (c d : Char) (m : List Char)
    (hc : p c = false) (hd : p d = false) :
    stripList p (c :: (m ++ [d])) = c :: (m ++ [d]) := by
  unfold stripList
  rw [List.dropWhile_cons, if_neg (by simp [hc])]
  rw [show (c :: (m ++ [d])).reverse = d :: (m.reverse ++ [c]) by simp]
  rw [List.dropWhile_cons, if_neg (by simp [hd])]
  simp

theorem spanDigits_eq (l : List Char) : l = (spanDigits l).1 ++ (spanDigits l).2 :=
  (List.takeWhile_append_dropWhile (p := Char.isDigit) (l := l)).symm

theorem jIntDigits_suffix (s ds r : List Char) (h : jIntDigits s = some (ds, r)) :
    s = ds ++ r := by
  unfold jIntDigits at h
  split at h
  · injection h with h1
    injection h1 with h2 h3
    subst h2
    subst h3
    rfl
  · split at h
    · injection h with h1
      injection h1 with h2 h3
      subst h2
      subst h3
      simp only [List.cons_append]
      exact congrArg (List.cons _) (spanDigits_eq _)
    · exact absurd h (by simp)
  · exact absurd h (by simp)

theorem jFrac_eq (l : List Char) : l = (jFrac l).1 ++ (jFrac l).2 := by
  unfold jFrac
  split
  · rename_i rest
    dsimp only
    by_cases hds : (spanDigits rest).1.isEmpty
    · simp [hds]
    · rw [if_neg hds]
      simpa using congrArg (List.cons '.') (spanDigits_eq rest)
  · simp

theorem jExp_eq (l : List Char) : l = (jExp l).1 ++ (jExp l).2 := by
  unfold jExp
  split
  · rename_i e s rest
    by_cases he : (e = 'e' || e = 'E') = true
    · rw [if_pos he]
      by_cases hs : (s = '+' || s = '-') = true
      · rw [if_pos hs]
        dsimp only
        by_cases hds : (spanDigits rest).1.isEmpty
        · simp [hds]
        · rw [if_neg hds]
          simpa using congrArg (fun t => e :: s :: t) (spanDigits_eq rest)
      · rw [if_neg hs]
        dsimp only
        by_cases hds : (spanDigits (s :: rest)).1.isEmpty
        · simp [hds]
        · rw [if_neg hds]
          simpa using congrArg (List.cons e) (spanDigits_eq (s :: rest))
    · simp [he]
  · simp

theorem jNumber_suffix (s lex r : List Char) (h : jNumber s = some (lex, r)) :
    ∃ t, s = t ++ r := by
  unfold jNumber at h
  split at h
  · rename_i rest
    split at h
    · rename_i ds r1 heq
      dsimp only at h
      simp only [Option.some.injEq, Prod.mk.injEq] at h
      obtain ⟨hlex, hr⟩ := h
      subst hr
      refine ⟨'-' :: (ds ++ (jFrac r1).1 ++ (jExp (jFrac r1).2).1), ?_⟩
      have e1 := jIntDigits_suffix rest ds r1 heq
      have e2 := jFrac_eq r1
      have e3 := jExp_eq (jFrac r1).2
      conv_lhs => rw [e1, e2]
      conv_lhs => rw [e3]
      simp
    · exact absurd h (by simp)
  · split at h
    · rename_i ds r1 heq
      dsimp only at h
      simp only [Option.some.injEq, Prod.mk.injEq] at h
      obtain ⟨hlex, hr⟩ := h
      subst hr
      refine ⟨ds ++ (jFrac r1).1 ++ (jExp (jFrac r1).2).1, ?_⟩
      have e1 := jIntDigits_suffix s ds r1 heq
      have e2 := jFrac_eq r1
      have e3 := jExp_eq (jFrac r1).2
      conv_lhs => rw [e1, e2]
      conv_lhs => rw [e3]
      simp
    · exact absurd h (by simp)

theorem consCore_suffix_helper (c : Char) (o : Option (List Char × List Char))
    (cs r : List Char) (h : consCore c o = some (cs, r)) :
    ∃ cs', o = some (cs', r) ∧ cs = c :: cs' := by
  cases o with
  | none => simp [consCore] at h
  | some p =>
    obtain ⟨a, b⟩ := p
    have h' : some (c :: a, b) = some (cs, r) := h
    injection h' with h''
    injection h'' with hcs hr
    exact ⟨a, by rw [hr], hcs.symm⟩

theorem jStringCore_suffix_aux :
    ∀ n (s : List Char), s.length ≤ n → ∀ cs r, jStringCore s = some (cs, r) →
      ∃ t, s = t ++ r := by
  intro n
  induction n with
  | zero =>
    intro s hlen cs r h
    have hs : s = [] := List.length_eq_zero.mp (Nat.le_zero.mp hlen)
    subst hs
    simp [jStringCore] at h
  | succ n ih =>
    intro s hlen cs r h
    cases s with
    | nil => simp [jStringCore] at h
    | cons c rest =>
      rw [jStringCore.eq_def] at h
      dsimp only at h
      simp only [List.length_cons] at hlen
      have esc : ∀ (ch : Char) (restX : List Char), restX.length ≤ n → ∀ csX,
          consCore ch (jStringCore restX) = some (csX, r) → ∃ t, restX = t ++ r := by
        intro ch restX hlen2 csX hcc
        obtain ⟨cs', hrec, _⟩ := consCore_suffix_helper _ _ _ _ hcc
        exact ih restX hlen2 _ _ hrec
      by_cases hc1 : c = '"'
      · rw [if_pos hc1] at h
        have h' : cs = [] ∧ rest = r := by
          injection h with h''
          injection h'' with h1 h2
          exact ⟨h1.symm, h2⟩
        exact ⟨[c], by simp [h'.2]⟩
      · rw [if_neg hc1] at h
        by_cases hc2 : c = '\\'
        · rw [if_pos hc2] at h
          cases rest with
          | nil => simp at h
          | cons e rest2 =>
            dsimp only at h
            simp only [List.length_cons] at hlen
            by_cases he1 : e = '"'
            · rw [if_pos he1] at h
              obtain ⟨t, ht⟩ := esc _ rest2 (by omega) _ h
              exact ⟨c :: e :: t, by simp [ht]⟩
            · rw [if_neg he1] at h
              by_cases he2 : e = '\\'
              · rw [if_pos he2] at h
                obtain ⟨t, ht⟩ := esc _ rest2 (by omega) _ h
                exact ⟨c :: e :: t, by simp [ht]⟩
              · rw [if_neg he2] at h
                by_cases he3 : e = '/'
                · rw [if_pos he3] at h
                  obtain ⟨t, ht⟩ := esc _ rest2 (by omega) _ h
                  exact ⟨c :: e :: t, by simp [ht]⟩
                · rw [if_neg he3] at h
                  by_cases he4 : e = 'b'
                  · rw [if_pos he4] at h
                    obtain ⟨t, ht⟩ := esc _ rest2 (by omega) _ h
                    exact ⟨c :: e :: t, by simp [ht]⟩
                  · rw [if_neg he4] at h
                    by_cases he5 : e = 'f'
                    · rw [if_pos he5] at h
                      obtain ⟨t, ht⟩ := esc _ rest2 (by omega) _ h
                      exact ⟨c :: e :: t, by simp [ht]⟩
                    · rw [if_neg he5] at h
                      by_cases he6 : e = 'n'
                      · rw [if_pos he6] at h
                        obtain ⟨t, ht⟩ := esc _ rest2 (by omega) _ h
                        exact ⟨c :: e :: t, by simp [ht]⟩
                      · rw [if_neg he6] at h
                        by_cases he7 : e = 'r'
                        · rw [if_pos he7] at h
                          obtain ⟨t, ht⟩ := esc _ rest2 (by omega) _ h
                          exact ⟨c :: e :: t, by simp [ht]⟩
                        · rw [if_neg he7] at h
                          by_cases he8 : e = 't'
                          · rw [if_pos he8] at h
                            obtain ⟨t, ht⟩ := esc _ rest2 (by omega) _ h
                            exact ⟨c :: e :: t, by simp [ht]⟩
                          · rw [if_neg he8] at h
                            by_cases he9 : e = 'u'
                            · rw [if_pos he9] at h
                              split at h
                              · rename_i h1 h2 h3 h4 rest3
                                split at h
                                · rename_i a4 b4 c4 d4 heq1 heq2 heq3 heq4
                                  simp only [List.length_cons] at hlen
                                  obtain ⟨t, ht⟩ := esc _ rest3 (by omega) _ h
                                  exact ⟨c :: e :: h1 :: h2 :: h3 :: h4 :: t, by simp [ht]⟩
                                · exact absurd h (by simp)
                              · exact absurd h (by simp)
                            · rw [if_neg he9] at h
                              exact absurd h (by simp)
        · rw [if_neg hc2] at h
          by_cases hc3 : c.toNat < 32
          · rw [if_pos hc3] at h
            exact absurd h (by simp)
          · rw [if_neg hc3] at h
            obtain ⟨t, ht⟩ := esc _ rest (by omega) _ h
            exact ⟨c :: t, by simp [ht]⟩

theorem jStringCore_suffix (s cs r : List Char) (h : jStringCore s = some (cs, r)) :
    ∃ t, s = t ++ r :=
  jStringCore_suffix_aux s.length s (Nat.le_refl _) cs r h

theorem sufChain {a b c : List Char} (h1 : ∃ t, a = t ++ b) (h2 : ∃ u, b = u ++ c) :
    ∃ w, a = w ++ c := by
  obtain ⟨t, ht⟩ := h1
  obtain ⟨u, hu⟩ := h2
  exact ⟨t ++ u, by simp [ht, hu]⟩

theorem sufDrop (p : Char → Bool) (l : List Char) : ∃ t, l = t ++ l.dropWhile p :=
  ⟨l.takeWhile p, (List.takeWhile_append_dropWhile p l).symm⟩

theorem sufDropCons (p : Char → Bool) (l rest : List Char) (c : Char)
    (h : l.dropWhile p = c :: rest) : ∃ t, l = t ++ rest := by
  refine ⟨l.takeWhile p ++ [c], ?_⟩
  calc l = l.takeWhile p ++ l.dropWhile p := (List.takeWhile_append_dropWhile p l).symm
    _ = l.takeWhile p ++ (c :: rest) := by rw [h]
    _ = (l.takeWhile p ++ [c]) ++ rest := by simp

set_option maxHeartbeats 1000000 in
theorem jParsers_suffix : ∀ fuel,
    (∀ s v r, jValue fuel s = some (v, r) → ∃ t, s = t ++ r) ∧
    (∀ s v r, jObjBody fuel s = some (v, r) → ∃ t, s = t ++ r) ∧
    (∀ s acc v r, jMembers fuel s acc = some (v, r) → ∃ t, s = t ++ r) ∧
    (∀ s v r, jArrBody fuel s = some (v, r) → ∃ t, s = t ++ r) ∧
    (∀ s acc v r, jElements fuel s acc = some (v, r) → ∃ t, s = t ++ r) := by
  intro fuel
  induction fuel with
  | zero =>
    refine ⟨?_, ?_, ?_, ?_, ?_⟩ <;> intro s
    · intro v r h
      simp [jValue] at h
    · intro v r h
      simp [jObjBody] at h
    · intro acc v r h
      simp [jMembers] at h
    · intro v r h
      simp [jArrBody] at h
    · intro acc v r h
      simp [jElements] at h
  | succ fuel ih =>
    obtain ⟨ihV, ihO, ihM, ihA, ihE⟩ := ih
    refine ⟨?_, ?_, ?_, ?_, ?_⟩
    · -- jValue
      intro s v r h
      cases s with
      | nil => simp [jValue] at h
      | cons c rest =>
        rw [jValue.eq_def] at h
        dsimp only at h
        by_cases h1 : c = '\x7b'
        · rw [if_pos h1] at h
          obtain ⟨t, ht⟩ := ihO rest v r h
          exact ⟨c :: t, by simp [ht]⟩
        · rw [if_neg h1] at h
          by_cases h2 : c = '['
          · rw [if_pos h2] at h
            obtain ⟨t, ht⟩ := ihA rest v r h
            exact ⟨c :: t, by simp [ht]⟩
          · rw [if_neg h2] at h
            by_cases h3 : c = '"'
            · rw [if_pos h3] at h
              cases hsc : jStringCore rest with
              | none => rw [hsc] at h; simp at h
              | some p =>
                obtain ⟨cs, r2⟩ := p
                rw [hsc] at h
                have h' : some (Json.str (String.mk cs), r2) = some (v, r) := h
                injection h' with h''
                injection h'' with hv hr
                subst hr
                obtain ⟨t, ht⟩ := jStringCore_suffix rest cs r2 hsc
                exact ⟨c :: t, by simp [ht]⟩
            · rw [if_neg h3] at h
              by_cases h4 : c = 't'
              · rw [if_pos h4] at h
                split at h
                · rename_i r2
                  have h' := h
                  injection h' with h''
                  injection h'' with hv hr
                  subst hr
                  exact ⟨[c, 'r', 'u', 'e'], by simp⟩
                · exact absurd h (by simp)
              · rw [if_neg h4] at h
                by_cases h5 : c = 'f'
                · rw [if_pos h5] at h
                  split at h
                  · rename_i r2
                    have h' := h
                    injection h' with h''
                    injection h'' with hv hr
                    subst hr
                    exact ⟨[c, 'a', 'l', 's', 'e'], by simp⟩
                  · exact absurd h (by simp)
                · rw [if_neg h5] at h
                  by_cases h6 : c = 'n'
                  · rw [if_pos h6] at h
                    split at h
                    · rename_i r2
                      have h' := h
                      injection h' with h''
                      injection h'' with hv hr
                      subst hr
                      exact ⟨[c, 'u', 'l', 'l'], by simp⟩
                    · exact absurd h (by simp)
                  · rw [if_neg h6] at h
                    by_cases h7 : c = 'N'
                    · rw [if_pos h7] at h
                      split at h
                      · rename_i r2
                        have h' := h
                        injection h' with h''
                        injection h'' with hv hr
                        subst hr
                        exact ⟨[c, 'a', 'N'], by simp⟩
                      · exact absurd h (by simp)
                    · rw [if_neg h7] at h
                      by_cases h8 : c = 'I'
                      · rw [if_pos h8] at h
                        split at h
                        · rename_i r2
                          have h' := h
                          injection h' with h''
                          injection h'' with hv hr
                          subst hr
                          exact ⟨[c, 'n', 'f', 'i', 'n', 'i', 't', 'y'], by simp⟩
                        · exact absurd h (by simp)
                      · rw [if_neg h8] at h
                        by_cases h9 : c = '-'
                        · rw [if_pos h9] at h
                          split at h
                          · rename_i r2
                            have h' := h
                            injection h' with h''
                            injection h'' with hv hr
                            subst hr
                            exact ⟨[c, 'I', 'n', 'f', 'i', 'n', 'i', 't', 'y'], by simp⟩
                          · cases hnum : jNumber (c :: rest) with
                            | none => rw [hnum] at h; simp at h
                            | some p =>
                              obtain ⟨lex, r2⟩ := p
                              rw [hnum] at h
                              have h' : some (Json.num (String.mk lex), r2) = some (v, r) := h
                              injection h' with h''
                              injection h'' with hv hr
                              subst hr
                              exact jNumber_suffix (c :: rest) lex r2 hnum
                        · rw [if_neg h9] at h
                          cases hnum : jNumber (c :: rest) with
                          | none => rw [hnum] at h; simp at h
                          | some p =>
                            obtain ⟨lex, r2⟩ := p
                            rw [hnum] at h
                            have h' : some (Json.num (String.mk lex), r2) = some (v, r) := h
                            injection h' with h''
                            injection h'' with hv hr
                            subst hr
                            exact jNumber_suffix (c :: rest) lex r2 hnum
    · -- jObjBody
      intro s v r h
      rw [jObjBody.eq_def] at h
      dsimp only at h
      cases hdrop : s.dropWhile isJsonWs with
      | nil => rw [hdrop] at h; simp at h
      | cons c rest =>
        rw [hdrop] at h
        dsimp only at h
        by_cases hc : c = '\x7d'
        · rw [if_pos hc] at h
          have h' := h
          injection h' with h''
          injection h'' with hv hr
          subst hr
          exact sufDropCons isJsonWs s rest c hdrop
        · rw [if_neg hc] at h
          obtain ⟨t, ht⟩ := ihM (c :: rest) [] v r h
          refine sufChain (sufDrop isJsonWs s) ?_
          rw [hdrop]
          exact ⟨t, ht⟩
    · -- jMembers
      intro s acc v r h
      rw [jMembers.eq_def] at h
      dsimp only at h
      cases s with
      | nil => simp at h
      | cons c rest =>
        dsimp only at h
        by_cases hc : c = '"'
        · rw [if_pos hc] at h
          cases hsc : jStringCore rest with
          | none => rw [hsc] at h; simp at h
          | some p =>
            obtain ⟨key, r2⟩ := p
            rw [hsc] at h
            dsimp only at h
            have hsuf1 : ∃ t, c :: rest = t ++ r2 := by
              obtain ⟨t, ht⟩ := jStringCore_suffix rest key r2 hsc
              exact ⟨c :: t, by simp [ht]⟩
            cases hdrop2 : r2.dropWhile isJsonWs with
            | nil => rw [hdrop2] at h; simp at h
            | cons c2 r3 =>
              rw [hdrop2] at h
              dsimp only at h
              by_cases hc2 : c2 = ':'
              · rw [if_pos hc2] at h
                cases hval : jValue fuel (r3.dropWhile isJsonWs) with
                | none => rw [hval] at h; simp at h
                | some p2 =>
                  obtain ⟨v0, r4⟩ := p2
                  rw [hval] at h
                  dsimp only at h
                  have hsuf2 : ∃ t, c :: rest = t ++ r4 := by
                    refine sufChain hsuf1 (sufChain (sufDropCons isJsonWs r2 r3 c2 hdrop2)
                      (sufChain (sufDrop isJsonWs r3) ?_))
                    exact ihV _ v0 r4 hval
                  cases hdrop4 : r4.dropWhile isJsonWs with
                  | nil => rw [hdrop4] at h; simp at h
                  | cons c3 r5 =>
                    rw [hdrop4] at h
                    dsimp only at h
                    by_cases hc3 : c3 = ','
                    · rw [if_pos hc3] at h
                      obtain ⟨t, ht⟩ := ihM (r5.dropWhile isJsonWs) _ v r h
                      exact sufChain hsuf2 (sufChain (sufDropCons isJsonWs r4 r5 c3 hdrop4)
                        (sufChain (sufDrop isJsonWs r5) ⟨t, ht⟩))
                    · rw [if_neg hc3] at h
                      by_cases hc4 : c3 = '\x7d'
                      · rw [if_pos hc4] at h
                        have h' := h
                        injection h' with h''
                        injection h'' with hv hr
                        subst hr
                        exact sufChain hsuf2 (sufDropCons isJsonWs r4 r5 c3 hdrop4)
                      · rw [if_neg hc4] at h
                        simp at h
              · rw [if_neg hc2] at h
                simp at h
        · rw [if_neg hc] at h
          simp at h
    · -- jArrBody
      intro s v r h
      rw [jArrBody.eq_def] at h
      dsimp only at h
      cases hdrop : s.dropWhile isJsonWs with
      | nil => rw [hdrop] at h; simp at h
      | cons c rest =>
        rw [hdrop] at h
        dsimp only at h
        by_cases hc : c = ']'
        · rw [if_pos hc] at h
          have h' := h
          injection h' with h''
          injection h'' with hv hr
          subst hr
          exact sufDropCons isJsonWs s rest c hdrop
        · rw [if_neg hc] at h
          obtain ⟨t, ht⟩ := ihE (c :: rest) [] v r h
          refine sufChain (sufDrop isJsonWs s) ?_
          rw [hdrop]
          exact ⟨t, ht⟩
    · -- jElements
      intro s acc v r h
      rw [jElements.eq_def] at h
      dsimp only at h
      cases hval : jValue fuel s with
      | none => rw [hval] at h; simp at h
      | some p =>
        obtain ⟨v0, r0⟩ := p
        rw [hval] at h
        dsimp only at h
        have hsuf1 : ∃ t, s = t ++ r0 := ihV s v0 r0 hval
        cases hdrop : r0.dropWhile isJsonWs with
        | nil => rw [hdrop] at h; simp at h
        | cons c r2 =>
          rw [hdrop] at h
          dsimp only at h
          by_cases hc : c = ','
          · rw [if_pos hc] at h
            obtain ⟨t, ht⟩ := ihE (r2.dropWhile isJsonWs) _ v r h
            exact sufChain hsuf1 (sufChain (sufDropCons isJsonWs r0 r2 c hdrop)
              (sufChain (sufDrop isJsonWs r2) ⟨t, ht⟩))
          · rw [if_neg hc] at h
            by_cases hc2 : c = ']'
            · rw [if_pos hc2] at h
              have h' := h
              injection h' with h''
              injection h'' with hv hr
              subst hr
              exact sufChain hsuf1 (sufDropCons isJsonWs r0 r2 c hdrop)
            · rw [if_neg hc2] at h
              simp at h

theorem jElements_arr : ∀ fuel l acc v r, jElements fuel l acc = some (v, r) →
    ∃ xs, v = .arr xs := by
  intro fuel
  induction fuel with
  | zero =>
    intro l acc v r h
    simp [jElements] at h
  | succ fuel ih =>
    intro l acc v r h
    rw [jElements.eq_def] at h
    dsimp only at h
    cases hval : jValue fuel l with
    | none => rw [hval] at h; simp at h
    | some p =>
      obtain ⟨v0, r0⟩ := p
      rw [hval] at h
      dsimp only at h
      cases hd : r0.dropWhile isJsonWs with
      | nil => rw [hd] at h; simp at h
      | cons c r2 =>
        rw [hd] at h
        dsimp only at h
        by_cases hc : c = ','
        · rw [if_pos hc] at h
          exact ih _ _ _ _ h
        · rw [if_neg hc] at h
          by_cases hc2 : c = ']'
          · rw [if_pos hc2] at h
            have h' := h
            injection h' with h''
            injection h'' with hv _
            exact ⟨_, hv.symm⟩
          · rw [if_neg hc2] at h
            simp at h

theorem jArrBody_arr (fuel : Nat) (l : List Char) (v : Json) (r : List Char)
    (h : jArrBody fuel l = some (v, r)) : ∃ xs, v = .arr xs := by
  cases fuel with
  | zero => simp [jArrBody] at h
  | succ fuel =>
    rw [jArrBody.eq_def] at h
    dsimp only at h
    cases hd : l.dropWhile isJsonWs with
    | nil => rw [hd] at h; simp at h
    | cons c rest =>
      rw [hd] at h
      dsimp only at h
      by_cases hc : c = ']'
      · rw [if_pos hc] at h
        have h' := h
        injection h' with h''
        injection h'' with hv _
        exact ⟨_, hv.symm⟩
      · rw [if_neg hc] at h
        exact jElements_arr fuel _ _ _ _ h

theorem jMembers_shape_closing : ∀ fuel l acc v r, jMembers fuel l acc = some (v, r) →
    (∃ kvs, v = .obj kvs) ∧ (∃ p, l = p ++ '\x7d' :: r) := by
  intro fuel
  induction fuel with
  | zero =>
    intro l acc v r h
    simp [jMembers] at h
  | succ fuel ih =>
    intro l acc v r h
    rw [jMembers.eq_def] at h
    dsimp only at h
    cases l with
    | nil => simp at h
    | cons c rest =>
      dsimp only at h
      by_cases hc : c = '"'
      · rw [if_pos hc] at h
        cases hsc : jStringCore rest with
        | none => rw [hsc] at h; simp at h
        | some p =>
          obtain ⟨key, r2⟩ := p
          rw [hsc] at h
          dsimp only at h
          have hsuf1 : ∃ t, c :: rest = t ++ r2 := by
            obtain ⟨t, ht⟩ := jStringCore_suffix rest key r2 hsc
            exact ⟨c :: t, by simp [ht]⟩
          cases hd2 : r2.dropWhile isJsonWs with
          | nil => rw [hd2] at h; simp at h
          | cons c2 r3 =>
            rw [hd2] at h
            dsimp only at h
            by_cases hc2 : c2 = ':'
            · rw [if_pos hc2] at h
              cases hval : jValue fuel (r3.dropWhile isJsonWs) with
              | none => rw [hval] at h; simp at h
              | some p2 =>
                obtain ⟨v0, r4⟩ := p2
                rw [hval] at h
                dsimp only at h
                have hsuf2 : ∃ t, c :: rest = t ++ r4 := by
                  refine sufChain hsuf1 (sufChain (sufDropCons isJsonWs r2 r3 c2 hd2)
                    (sufChain (sufDrop isJsonWs r3) ?_))
                  exact (jParsers_suffix fuel).1 _ v0 r4 hval
                cases hd4 : r4.dropWhile isJsonWs with
                | nil => rw [hd4] at h; simp at h
                | cons c3 r5 =>
                  rw [hd4] at h
                  dsimp only at h
                  by_cases hc3 : c3 = ','
                  · rw [if_pos hc3] at h
                    obtain ⟨hshape, p', hp'⟩ := ih _ _ _ _ h
                    refine ⟨hshape, ?_⟩
                    have hsuf3 : ∃ t, c :: rest = t ++ (r5.dropWhile isJsonWs) :=
                      sufChain hsuf2 (sufChain (sufDropCons isJsonWs r4 r5 c3 hd4)
                        (sufDrop isJsonWs r5))
                    obtain ⟨t, ht⟩ := hsuf3
                    exact ⟨t ++ p', by rw [ht, hp']; simp⟩
                  · rw [if_neg hc3] at h
                    by_cases hc4 : c3 = '\x7d'
                    · rw [if_pos hc4] at h
                      have h' := h
                      injection h' with h''
                      injection h'' with hv hr
                      subst hr
                      refine ⟨⟨_, hv.symm⟩, ?_⟩
                      have hr4 : r4 = r4.takeWhile isJsonWs ++ ('\x7d' :: r5) := by
                        conv_lhs => rw [← List.takeWhile_append_dropWhile isJsonWs r4]
                        rw [hd4, hc4]
                      obtain ⟨t, ht⟩ := hsuf2
                      refine ⟨t ++ r4.takeWhile isJsonWs, ?_⟩
                      rw [ht]
                      conv_lhs => rw [hr4]
                      simp
                    · rw [if_neg hc4] at h
                      simp at h
            · rw [if_neg hc2] at h
              simp at h
      · rw [if_neg hc] at h
        simp at h

theorem jObjBody_shape_closing (fuel : Nat) (l : List Char) (v : Json) (r : List Char)
    (h : jObjBody fuel l = some (v, r)) :
    (∃ kvs, v = .obj kvs) ∧ (∃ p, l = p ++ '\x7d' :: r) := by
  cases fuel with
  | zero => simp [jObjBody] at h
  | succ fuel =>
    rw [jObjBody.eq_def] at h
    dsimp only at h
    cases hd : l.dropWhile isJsonWs with
    | nil => rw [hd] at h; simp at h
    | cons c rest =>
      rw [hd] at h
      dsimp only at h
      by_cases hc : c = '\x7d'
      · rw [if_pos hc] at h
        have h' := h
        injection h' with h''
        injection h'' with hv hr
        subst hr
        refine ⟨⟨_, hv.symm⟩, ?_⟩
        have hl : l = l.takeWhile isJsonWs ++ ('\x7d' :: rest) := by
          conv_lhs => rw [← List.takeWhile_append_dropWhile isJsonWs l]
          rw [hd, hc]
        exact ⟨l.takeWhile isJsonWs, hl⟩
      · rw [if_neg hc] at h
        obtain ⟨hshape, p, hp⟩ := jMembers_shape_closing fuel (c :: rest) [] v r h
        refine ⟨hshape, ?_⟩
        have hl : l = l.takeWhile isJsonWs ++ (c :: rest) := by
          conv_lhs => rw [← List.takeWhile_append_dropWhile isJsonWs l]
          rw [hd]
        refine ⟨l.takeWhile isJsonWs ++ p, ?_⟩
        conv_lhs => rw [hl]
        rw [hp]
        simp

theorem jValue_obj (fuel : Nat) (s : List Char) (kvs : List (String × Json))
    (r : List Char) (h : jValue fuel s = some (.obj kvs, r)) :
    ∃ mid, s = '\x7b' :: (mid ++ '\x7d' :: r) := by
  cases fuel with
  | zero => simp [jValue] at h
  | succ fuel =>
    cases s with
    | nil => simp [jValue] at h
    | cons c rest =>
      rw [jValue.eq_def] at h
      dsimp only at h
      by_cases h1 : c = '\x7b'
      · rw [if_pos h1] at h
        obtain ⟨_, p, hp⟩ := jObjBody_shape_closing fuel rest _ _ h
        subst h1
        exact ⟨p, by rw [hp]⟩
      · rw [if_neg h1] at h
        by_cases h2 : c = '['
        · rw [if_pos h2] at h
          obtain ⟨xs, hxs⟩ := jArrBody_arr fuel rest _ _ h
          exact absurd hxs (by simp)
        · rw [if_neg h2] at h
          by_cases h3 : c = '"'
          · rw [if_pos h3] at h
            cases hsc : jStringCore rest with
            | none => rw [hsc] at h; simp at h
            | some p =>
              obtain ⟨cs, r2⟩ := p
              rw [hsc] at h
              have h' : some (Json.str (String.mk cs), r2) = some (.obj kvs, r) := h
              injection h' with h''
              injection h'' with hv _
              exact absurd hv (by simp)
          · rw [if_neg h3] at h
            by_cases h4 : c = 't'
            · rw [if_pos h4] at h
              split at h
              · simp at h
              · simp at h
            · rw [if_neg h4] at h
              by_cases h5 : c = 'f'
              · rw [if_pos h5] at h
                split at h
                · simp at h
                · simp at h
              · rw [if_neg h5] at h
                by_cases h6 : c = 'n'
                · rw [if_pos h6] at h
                  split at h
                  · simp at h
                  · simp at h
                · rw [if_neg h6] at h
                  by_cases h7 : c = 'N'
                  · rw [if_pos h7] at h
                    split at h
                    · simp at h
                    · simp at h
                  · rw [if_neg h7] at h
                    by_cases h8 : c = 'I'
                    · rw [if_pos h8] at h
                      split at h
                      · simp at h
                      · simp at h
                    · rw [if_neg h8] at h
                      by_cases h9 : c = '-'
                      · rw [if_pos h9] at h
                        split at h
                        · simp at h
                        · cases hnum : jNumber (c :: rest) with
                          | none => rw [hnum] at h; simp at h
                          | some p =>
                            obtain ⟨lex, r2⟩ := p
                            rw [hnum] at h
                            have h' : some (Json.num (String.mk lex), r2)
                                = some (.obj kvs, r) := h
                            injection h' with h''
                            injection h'' with hv _
                            exact absurd hv (by simp)
                      · rw [if_neg h9] at h
                        cases hnum : jNumber (c :: rest) with
                        | none => rw [hnum] at h; simp at h
                        | some p =>
                          obtain ⟨lex, r2⟩ := p
                          rw [hnum] at h
                          have h' : some (Json.num (String.mk lex), r2)
                              = some (.obj kvs, r) := h
                          injection h' with h''
                          injection h'' with hv _
                          exact absurd hv (by simp)

theorem jValue_backtick (fuel : Nat) (rest : List Char) :
    jValue fuel ('\x60' :: rest) = none := by
  cases fuel with
  | zero => simp [jValue]
  | succ fuel =>
    rfl

theorem isRegexWs_of_isJsonWs (c : Char) (h : isJsonWs c = true) : isRegexWs c = true := by
  simp only [isJsonWs, Bool.or_eq_true, decide_eq_true_eq] at h
  simp only [isRegexWs, Bool.or_eq_true, decide_eq_true_eq]
  tauto

theorem closeCheck_ws_fence (wsR : List Char) (hws : ∀ x ∈ wsR, isJsonWs x = true) :
    closeCheck (wsR ++ '\n' :: '\x60' :: '\x60' :: '\x60' :: []) = true := by
  unfold closeCheck
  rw [dropWhile_append_pos _ _ _ (fun x hx => isRegexWs_of_isJsonWs x (hws x hx))]
  decide

theorem closeCheck_false_of_no_triple (m2 T : List Char)
    (hm2 : containsSub m2 ['\x60', '\x60', '\x60'] = false) :
    closeCheck (m2 ++ '\x7d' :: T) = false := by
  unfold closeCheck
  cases hdw : m2.dropWhile isRegexWs with
  | nil =>
    have hall : ∀ x ∈ m2, isRegexWs x = true := by
      intro x hx
      by_contra hbad
      have : m2.dropWhile isRegexWs ≠ [] := by
        intro hnil
        have := List.dropWhile_eq_nil_iff.mp hnil x hx
        exact hbad this
      exact this hdw
    rw [dropWhile_append_pos _ _ _ hall]
    rw [List.dropWhile_cons, if_neg (by decide)]
    simp [listStartsWith]
  | cons c m2' =>
    rw [dropWhile_append_neg _ _ _ _ _ hdw]
    by_contra hT
    have hT' : listStartsWith (c :: (m2' ++ '\x7d' :: T)) ['\x60', '\x60', '\x60'] = true := by
      revert hT
      cases listStartsWith (c :: (m2' ++ '\x7d' :: T)) ['\x60', '\x60', '\x60'] <;> simp
    obtain ⟨t, ht⟩ := listStartsWith_three _ _ _ _ hT'
    cases m2' with
    | nil =>
      simp only [List.nil_append, List.cons.injEq] at ht
      exact absurd ht.2.1 (by decide)
    | cons c2 m2'' =>
      cases m2'' with
      | nil =>
        simp only [List.cons_append, List.nil_append, List.cons.injEq] at ht
        exact absurd ht.2.2.1 (by decide)
      | cons c3 m2''' =>
        simp only [List.cons_append, List.cons.injEq] at ht
        obtain ⟨hc, hc2, hc3, _⟩ := ht
        subst hc
        subst hc2
        subst hc3
        have hm2eq : m2 = m2.takeWhile isRegexWs ++ ('\x60' :: '\x60' :: '\x60' :: m2''') := by
          conv_lhs => rw [← List.takeWhile_append_dropWhile isRegexWs m2]
          rw [hdw]
        have hcontra : containsSub m2 ['\x60', '\x60', '\x60'] = true := by
          apply containsSub_of_decomp (m2.takeWhile isRegexWs) _ m2''' m2
          conv_lhs => rw [hm2eq]
          simp
        rw [hcontra] at hm2
        cases hm2

theorem lazyScan_through (T : List Char) (hT : closeCheck T = true) :
    ∀ mid acc,
      (∀ m1 m2, mid = m1 ++ '\x7d' :: m2 → closeCheck (m2 ++ '\x7d' :: T) = false) →
      lazyScan acc (mid ++ '\x7d' :: T) = some (acc.reverse ++ (mid ++ ['\x7d'])) := by
  intro mid
  induction mid with
  | nil =>
    intro acc _
    simp only [List.nil_append, lazyScan]
    rw [if_pos (by simp [hT])]
    simp
  | cons c mid' ih =>
    intro acc hcond
    simp only [List.cons_append, lazyScan, List.append_eq]
    by_cases hc : c = '\x7d'
    · have hfalse : closeCheck (mid' ++ '\x7d' :: T) = false :=
        hcond [] mid' (by rw [hc]; rfl)
      rw [if_neg (by simp [hfalse])]
      rw [ih (c :: acc) (fun m1 m2 hm => hcond (c :: m1) m2 (by rw [hm]; rfl))]
      simp
    · rw [if_neg (by simp [hc])]
      rw [ih (c :: acc) (fun m1 m2 hm => hcond (c :: m1) m2 (by rw [hm]; rfl))]
      simp

theorem listStartsWith_decomp (l n : List Char) (h : listStartsWith l n = true) :
    ∃ t, l = n ++ t := by
  induction n generalizing l with
  | nil => exact ⟨l, rfl⟩
  | cons c cs ih =>
    cases l with
    | nil => simp [listStartsWith] at h
    | cons x xs =>
      simp only [listStartsWith, Bool.and_eq_true, decide_eq_true_eq] at h
      obtain ⟨t, ht⟩ := ih xs h.2
      exact ⟨t, by rw [h.1, ht]; rfl⟩

theorem containsSub_decomp (l n : List Char) (h : containsSub l n = true) :
    ∃ a b, l = a ++ (n ++ b) := by
  induction l with
  | nil =>
    simp only [containsSub, List.isEmpty_iff] at h
    exact ⟨[], [], by simp [h]⟩
  | cons c t ih =>
    simp only [containsSub, Bool.or_eq_true] at h
    rcases h with h1 | h2
    · obtain ⟨u, hu⟩ := listStartsWith_decomp _ _ h1
      exact ⟨[], u, by simp [hu]⟩
    · obtain ⟨a, b, hab⟩ := ih h2
      exact ⟨c :: a, b, by simp [hab]⟩

theorem fencedSearch_head (c : Char) (t cap : List Char)
    (hAt : fencedAt (c :: t) = some cap) : fencedSearch (c :: t) = some cap := by
  rw [fencedSearch, hAt]

/-- C4 (amended): for every JSON text `J` that parses bare to a valid
Decision and contains no run of three consecutive backticks, the same text
embedded in a fenced code block (` ```json ... ``` `) parses to an equal
Decision.  (The counterexample shows the backtick restriction is necessary:
a ``` ` ``-run inside a string value can truncate the lazy capture of the
fenced-block regex.) -/
theorem parse_attempt_fence_idempotent (J : String) (j : Json)
    (hload : jsonLoads J = some j)
    (hvalid : validate_response j = true)
    (hnotriple : containsSub J.toList ['\x60', '\x60', '\x60'] = false) :
    parse_attempt J = .parsed j ∧ parse_attempt (fence_wrap J) = .parsed j := by
  have hbare : parse_attempt J = .parsed j := by
    unfold parse_attempt
    rw [hload]
    dsimp only
    rw [if_pos hvalid]
  refine ⟨hbare, ?_⟩
  -- the parsed value is an object
  obtain ⟨kvs, hj⟩ : ∃ kvs, j = .obj kvs := by
    cases j <;> first | exact ⟨_, rfl⟩ | simp [validate_response] at hvalid
  subst hj
  -- unpack the bare load: the stripped text is fully consumed by jValue
  have hjv : jValue (3 * (stripList isJsonWs J.toList).length + 8)
      (stripList isJsonWs J.toList) = some (.obj kvs, []) := by
    unfold jsonLoads at hload
    dsimp only at hload
    cases hv : jValue (3 * (stripList isJsonWs J.toList).length + 8)
        (stripList isJsonWs J.toList) with
    | none => rw [hv] at hload; simp at hload
    | some p =>
      obtain ⟨v, rest⟩ := p
      rw [hv] at hload
      cases rest with
      | nil =>
        dsimp only at hload
        injection hload with hload'
        rw [hload']
      | cons x xs => dsimp only at hload; exact absurd hload (by simp)
  -- shape of the stripped text
  obtain ⟨mid, hcore⟩ := jValue_obj _ _ _ _ hjv
  -- whitespace decomposition of J
  obtain ⟨wsL, wsR, hJdecomp, hwsL, hwsR⟩ := stripList_decomp isJsonWs J.toList
  rw [hcore] at hJdecomp
  -- mid carries no triple backtick
  have hmid_no3 : containsSub mid ['\x60', '\x60', '\x60'] = false := by
    by_contra hbad
    have hbad' : containsSub mid ['\x60', '\x60', '\x60'] = true := by
      revert hbad
      cases containsSub mid ['\x60', '\x60', '\x60'] <;> simp
    obtain ⟨x, y, hxy⟩ := containsSub_decomp _ _ hbad'
    have : containsSub J.toList ['\x60', '\x60', '\x60'] = true := by
      apply containsSub_of_decomp (wsL ++ '\x7b' :: x) _
        (y ++ '\x7d' :: [] ++ wsR) J.toList
      rw [hJdecomp, hxy]
      simp
    rw [this] at hnotriple
    cases hnotriple
  -- character list of the fenced presentation
  have hfence_list : (fence_wrap J).toList
      = '\x60' :: '\x60' :: '\x60' :: 'j' :: 's' :: 'o' :: 'n' :: '\n' ::
        (J.toList ++ ['\n', '\x60', '\x60', '\x60']) := by
    show ("\x60\x60\x60json\n" ++ J ++ "\n\x60\x60\x60").data = _
    rw [String.data_append, String.data_append]
    rfl
  -- strategy 1 fails on the fenced text
  have hfenceNone : jsonLoads (fence_wrap J) = none := by
    unfold jsonLoads
    dsimp only
    have hform : (fence_wrap J).toList
        = '\x60' :: (('\x60' :: '\x60' :: 'j' :: 's' :: 'o' :: 'n' :: '\n' ::
            (J.toList ++ ['\n', '\x60', '\x60'])) ++ ['\x60']) := by
      rw [hfence_list]
      simp
    rw [show String.toList (fence_wrap J) = (fence_wrap J).toList from rfl, hform,
      stripList_eq_self _ _ _ _ (by decide) (by decide)]
    rw [jValue_backtick]
  -- strategy 2 recovers exactly the stripped object text
  have hAt : fencedAt ((fence_wrap J).toList) = some ('\x7b' :: (mid ++ ['\x7d'])) := by
    rw [hfence_list]
    unfold fencedAt
    rw [if_pos (by simp [listStartsWith])]
    rw [show ('\x60' :: '\x60' :: '\x60' :: 'j' :: 's' :: 'o' :: 'n' :: '\n' ::
        (J.toList ++ ['\n', '\x60', '\x60', '\x60'])).drop 3
        = 'j' :: 's' :: 'o' :: 'n' :: '\n' :: (J.toList ++ ['\n', '\x60', '\x60', '\x60'])
        from rfl]
    unfold fencedAfter
    rw [show consumeJsonTag ('j' :: 's' :: 'o' :: 'n' :: '\n' ::
        (J.toList ++ ['\n', '\x60', '\x60', '\x60']))
        = '\n' :: (J.toList ++ ['\n', '\x60', '\x60', '\x60']) from by
      unfold consumeJsonTag
      rw [if_pos (by simp [listStartsWith])]
      rfl]
    rw [List.dropWhile_cons, if_pos (by decide)]
    have hsplit : J.toList ++ ['\n', '\x60', '\x60', '\x60']
        = wsL ++ (('\x7b' :: (mid ++ ['\x7d'])) ++ (wsR ++ ['\n', '\x60', '\x60', '\x60'])) := by
      rw [hJdecomp]
      simp
    rw [hsplit, dropWhile_append_pos _ wsL _
      (fun x hx => isRegexWs_of_isJsonWs x (hwsL x hx))]
    rw [show (('\x7b' :: (mid ++ ['\x7d'])) ++ (wsR ++ ['\n', '\x60', '\x60', '\x60']))
        = '\x7b' :: ((mid ++ ['\x7d']) ++ (wsR ++ ['\n', '\x60', '\x60', '\x60'])) from by simp]
    rw [List.dropWhile_cons, if_neg (by decide)]
    dsimp only
    rw [if_pos rfl]
    rw [show ((mid ++ ['\x7d']) ++ (wsR ++ ['\n', '\x60', '\x60', '\x60']))
        = mid ++ '\x7d' :: (wsR ++ '\n' :: '\x60' :: '\x60' :: '\x60' :: []) from by simp]
    rw [lazyScan_through (wsR ++ '\n' :: '\x60' :: '\x60' :: '\x60' :: [])
      (closeCheck_ws_fence wsR hwsR) mid []
      (fun m1 m2 hm => by
        apply closeCheck_false_of_no_triple
        by_contra hbad
        have hbad' : containsSub m2 ['\x60', '\x60', '\x60'] = true := by
          revert hbad
          cases containsSub m2 ['\x60', '\x60', '\x60'] <;> simp
        obtain ⟨x, y, hxy⟩ := containsSub_decomp _ _ hbad'
        have : containsSub mid ['\x60', '\x60', '\x60'] = true := by
          apply containsSub_of_decomp (m1 ++ '\x7d' :: x) _ y mid
          rw [hm, hxy]
          simp
        rw [this] at hmid_no3
        cases hmid_no3)]
    simp
  have hsearch : fencedSearch ((fence_wrap J).toList) = some ('\x7b' :: (mid ++ ['\x7d'])) := by
    have hcons : (fence_wrap J).toList
        = '\x60' :: ('\x60' :: '\x60' :: 'j' :: 's' :: 'o' :: 'n' :: '\n' ::
          (J.toList ++ ['\n', '\x60', '\x60', '\x60'])) := hfence_list
    rw [hcons]
    exact fencedSearch_head _ _ _ (by rw [← hcons]; exact hAt)
  -- strategy 2's capture loads to the same object
  have hload2 : jsonLoads (String.mk ('\x7b' :: (mid ++ ['\x7d']))) = some (.obj kvs) := by
    unfold jsonLoads
    dsimp only
    rw [show (String.mk ('\x7b' :: (mid ++ ['\x7d']))).toList
        = '\x7b' :: (mid ++ ['\x7d']) from rfl]
    rw [stripList_eq_self _ _ _ _ (by decide) (by decide)]
    rw [hcore] at hjv
    rw [hjv]
  -- assemble
  unfold parse_attempt
  rw [hfenceNone]
  dsimp only
  rw [hsearch]
  dsimp only
  rw [hload2]
  dsimp only
  rw [if_pos hvalid]

/-- Witness for C4's amended theorem at a concrete backtick-free Decision. -/
theorem parse_attempt_fence_idempotent_witness :
    parse_attempt "\x7b\"command\": \"nmap -A target.com\", \"stop\": false\x7d"
        = .parsed (.obj [("command", .str "nmap -A target.com"), ("stop", .bool false)]) ∧
    parse_attempt (fence_wrap "\x7b\"command\": \"nmap -A target.com\", \"stop\": false\x7d")
        = .parsed (.obj [("command", .str "nmap -A target.com"), ("stop", .bool false)]) :=
  parse_attempt_fence_idempotent
    "\x7b\"command\": \"nmap -A target.com\", \"stop\": false\x7d"
    (.obj [("command", .str "nmap -A target.com"), ("stop", .bool false)])
    (by rfl) (by rfl) (by decide)

end Scanner
